import Mathlib

/-!
Shallow embedding of the run-tracking core of the `srt-igt-splits` repository:
`src/splits/splits.rs` (aggregate data model, validator, run lifecycle engine)
and `src/splits/file_persistency.rs` (V1 -> V2 schema migration of split files).

Modelling conventions:
* `Uuid` values and `DateTime<Utc>` timestamps are modelled as `Nat`; the code
  only ever compares them for equality (ids) or order (timestamps).
* `std::time::Duration` keeps its `(secs, nanos)` pair, ordered
  lexicographically, so that the comparison against `Duration::MAX` in
  `finalize_run_at` behaves exactly as in Rust (a duration built by
  `Duration::from_secs` always has `nanos = 0` and therefore compares strictly
  below `Duration::MAX`).
* `Vec::sort_by` is a stable sort; a stable sort with respect to a total
  preorder is uniquely determined, so it is modelled by `List.insertionSort`
  with the relation `fun a b => cmp a b ≠ .gt` (insertion into the sorted
  tail before the first element that is not strictly smaller, which is the
  stable placement).
* Nondeterministic inputs of the code (`Uuid::new_v4()`, `Utc::now()`) are
  passed in as explicit parameters.
* Fallible operations return `Except String`, mirroring `anyhow::Result`.
-/

/-- Model of `std::time::Duration`: whole seconds (a `u64` in Rust) plus a
nanosecond part (`< 10^9` in any value Rust can construct). -/
structure Duration where
  secs : Nat
  nanos : Nat
deriving DecidableEq

/-- `u64::MAX`. -/
def u64Max : Nat := 18446744073709551615

/-- `Duration::MAX` (`u64::MAX` seconds and `999_999_999` nanoseconds). -/
def durationMAX : Duration := { secs := u64Max, nanos := 999999999 }

/-- `Duration::from_secs`. -/
def durFromSecs (s : Nat) : Duration := { secs := s, nanos := 0 }

/-- Three-way comparison on naturals, as produced by `Ord` on Rust's unsigned
integers. -/
def natCmp (a b : Nat) : Ordering :=
  if a < b then .lt else if a = b then .eq else .gt

/-- `Ord for Option<usize>`: `None` sorts before any `Some`. -/
def optNatCmp : Option Nat → Option Nat → Ordering
  | none, none => .eq
  | none, some _ => .lt
  | some _, none => .gt
  | some a, some b => natCmp a b

/-- `Ord for Duration`: lexicographic on seconds, then nanoseconds. -/
def durCmp (a b : Duration) : Ordering :=
  match natCmp a.secs b.secs with
  | .eq => natCmp a.nanos b.nanos
  | o => o

/-- Rust `a < b` on `Duration`. -/
def durLt (a b : Duration) : Bool := durCmp a b == .lt

/-- `InGameTime` (`src/in_game_time.rs`): one observation of progress. -/
structure InGameTime where
  percent : Nat
  duration : Duration
deriving DecidableEq

/-- `HistoricalSplit`: the recorded elapsed time of one run at one split. -/
structure HistoricalSplit where
  run_id : Nat
  duration : Duration
deriving DecidableEq

/-- `Split`: one checkpoint with its personal-best time and history. -/
structure Split where
  name : String
  percent : Nat
  time : Option Duration
  history : List HistoricalSplit
deriving DecidableEq

/-- `RunSummary`: one attempt. -/
structure RunSummary where
  id : Nat
  start_time : Nat
  end_time : Option Nat
  final_time : Option Duration
deriving DecidableEq

/-- `ActiveRun`: the transient in-memory projection of the current attempt. -/
structure ActiveRun where
  id : Nat
  start_time : Nat
  end_time : Option Nat
  latest_split : InGameTime
deriving DecidableEq

/-- `Splits`: the aggregate root. -/
structure Splits where
  path : Option String
  active_run : Option ActiveRun
  personal_best : Option RunSummary
  runs : List RunSummary
  splits : List Split
deriving DecidableEq

/-! ### List helpers mirroring the Rust library operations used by the code -/

/-- Model of `Vec::sort_by` with comparator `cmp`: Rust's sort is stable, and
the stable sort for the total preorder induced by `cmp` is unique, so it is
realised by insertion sort with relation `cmp a b ≠ .gt`. -/
def stableSortBy (cmp : α → α → Ordering) (l : List α) : List α :=
  l.insertionSort (fun a b => cmp a b ≠ .gt)

/-- Model of `Vec::dedup_by_key`: removes all but the first of consecutive
elements mapping to the same key (`go x l` processes `x :: l` with `x` the
currently kept element). -/
def dedupByKey (key : α → Nat) : List α → List α
  | [] => []
  | x :: rest => go x rest
where go : α → List α → List α
  | x, [] => [x]
  | x, y :: rest => if key x = key y then go x rest else x :: go y rest

/-- Model of `iter_mut().find(p)` followed by a mutation `f` of the found
element: rewrites the first element satisfying `p`. -/
def mapFirst (p : α → Bool) (f : α → α) : List α → List α
  | [] => []
  | x :: xs => if p x then f x :: xs else x :: mapFirst p f xs

/-- Model of `last_mut()` followed by a mutation `f`: rewrites the last
element, if any. -/
def mapLast (f : α → α) : List α → List α
  | [] => []
  | [x] => [f x]
  | x :: y :: rest => x :: mapLast f (y :: rest)

/-! ### The validator (`Splits::validate`, `src/splits/splits.rs` 147-234) -/

/-- `self.runs.sort_by(|a, b| a.start_time.cmp(&b.start_time))` (line 158). -/
def sortRuns (runs : List RunSummary) : List RunSummary :=
  stableSortBy (fun a b => natCmp a.start_time b.start_time) runs

/-- `self.splits.sort_by(|a, b| a.percent.cmp(&b.percent))` (line 149). -/
def sortSplits (splits : List Split) : List Split :=
  stableSortBy (fun a b => natCmp a.percent b.percent) splits

/-- The `run_indices` map of `validate`: index of the run with the given id in
the sorted `runs` vector (built before the personal-best backfill). -/
def runIdx (runs : List RunSummary) (id : Nat) : Option Nat :=
  match runs with
  | [] => none
  | r :: rest => if r.id == id then some 0 else (runIdx rest id).map (· + 1)

/-- The history comparator of `validate` (lines 179-189): by run order, with
ties broken by *reversed* duration so the larger duration comes first and is
the one kept by the dedup step. -/
def histCmp (runs : List RunSummary) (a b : HistoricalSplit) : Ordering :=
  match optNatCmp (runIdx runs a.run_id) (runIdx runs b.run_id) with
  | .eq => durCmp b.duration a.duration
  | o => o

/-- The re-sort comparator used on the final split (lines 212-216): by run
order only. -/
def idxCmp (runs : List RunSummary) (a b : HistoricalSplit) : Ordering :=
  optNatCmp (runIdx runs a.run_id) (runIdx runs b.run_id)

/-- The per-split history transformation of `validate` (lines 178-191):
stable sort by `histCmp`, then dedup by `run_id`. -/
def processHistory (runs : List RunSummary) (hist : List HistoricalSplit) :
    List HistoricalSplit :=
  dedupByKey (fun e => e.run_id) (stableSortBy (histCmp runs) hist)

/-- Overwrite the duration of the first history entry with the given run id
(`find` + in-place mutation in lines 197-202). -/
def setFirstDuration (id : Nat) (d : Duration) :
    List HistoricalSplit → List HistoricalSplit
  | [] => []
  | e :: rest =>
      if e.run_id == id then { e with duration := d } :: rest
      else e :: setFirstDuration id d rest

/-- One step of the final-split reconciliation loop (lines 195-209). -/
def reconcileOne (h : List HistoricalSplit) (run : RunSummary) :
    List HistoricalSplit :=
  match run.final_time with
  | none => h
  | some ft =>
      if h.any (fun e => e.run_id == run.id) then setFirstDuration run.id ft h
      else h ++ [{ run_id := run.id, duration := ft }]

/-- Final-split reconciliation (lines 194-217): force the last split's history
to agree with every run's `final_time`, then re-sort by run order. -/
def reconcileFinal (runs1 runs2 : List RunSummary) (sp : Split) : Split :=
  { sp with history := stableSortBy (idxCmp runs1) (runs2.foldl reconcileOne sp.history) }

/-- Recompute `Split.time` from the personal best (lines 219-231). -/
def setTimeFromPB (pb : Option RunSummary) (sp : Split) : Split :=
  { sp with
    time := pb.bind (fun p =>
      (sp.history.find? (fun e => e.run_id == p.id)).map (fun e => e.duration)) }

/-- `windows(2).any(|s| s[0].percent == s[1].percent)` (line 153). -/
def hasDupPercent : List Split → Bool
  | a :: b :: rest => a.percent == b.percent || hasDupPercent (b :: rest)
  | _ => false

/-- Backfill of a personal best missing from `runs` (lines 168-174). -/
def backfillPB (pb : Option RunSummary) (runs : List RunSummary) :
    List RunSummary :=
  match pb with
  | some p => if runs.any (fun r => r.id == p.id) then runs else runs ++ [p]
  | none => runs

/-- `Splits::validate` (lines 147-234). -/
def validate (s : Splits) : Except String Splits :=
  let splits1 := sortSplits s.splits
  if hasDupPercent splits1 then
    .error "Splits contain duplicate entries (percentages)"
  else
    let runs1 : List RunSummary := sortRuns s.runs
    if List.Nodup (runs1.map (fun r => r.id)) then
      let runs2 := backfillPB s.personal_best runs1
      let splits2 := splits1.map (fun sp =>
        { sp with history := processHistory runs1 sp.history })
      let splits3 := mapLast (reconcileFinal runs1 runs2) splits2
      let splits4 := splits3.map (setTimeFromPB s.personal_best)
      .ok { s with runs := runs2, splits := splits4 }
    else
      .error "Runs have duplicate IDs"

/-! ### Versioned persistence (`src/splits/file_persistency.rs`) -/

/-- `SplitV1`: one split of a version-1 file (after duration parsing). -/
structure SplitV1 where
  name : String
  percent : Nat
  duration : Option Duration
deriving DecidableEq

/-- The V1 -> V2 split migration (`From<SplitV1> for SplitV2` composed with
`From<&SplitV2> for Split`): `time` is copied from the V1 `duration`, the
history is empty. -/
def migrateSplitV1 (v1 : SplitV1) : Split :=
  { name := v1.name, percent := v1.percent, time := v1.duration, history := [] }

/-- `Splits::create_with_history` (lines 81-96): construct and validate. -/
def create_with_history (path : String) (pb : Option RunSummary)
    (runs : List RunSummary) (splits : List Split) : Except String Splits :=
  validate
    { path := some path, active_run := none, personal_best := pb,
      runs := runs, splits := splits }

/-- The version-1 branch of `file_persistency::load_from_file` (lines 265-268:
migrate to V2, `from_v2`, `create_with_history`) followed by the second
`validate` performed by `Splits::load_from_file` (lines 131-135). -/
def loadFromFileV1 (path : String) (v1 : List SplitV1) : Except String Splits :=
  match create_with_history path none [] (v1.map migrateSplitV1) with
  | .ok s => validate s
  | .error e => .error e

/-! ### The run lifecycle engine (`src/splits/splits.rs` 107-116, 265-375) -/

/-- The history mutation of `record_split_time` (lines 311-326): if the last
entry belongs to this run, overwrite its duration, otherwise push. -/
def recordInHistory (run_id : Nat) (d : Duration) (h : List HistoricalSplit) :
    List HistoricalSplit :=
  match h.getLast? with
  | some e =>
      if e.run_id == run_id then h.dropLast ++ [{ e with duration := d }]
      else h ++ [{ run_id := run_id, duration := d }]
  | none => h ++ [{ run_id := run_id, duration := d }]

/-- `Splits::record_split_time` (lines 311-326). -/
def record_split_time (splits : List Split) (run_id : Nat)
    (current : InGameTime) : List Split :=
  mapFirst (fun sp => sp.percent == current.percent)
    (fun sp => { sp with history := recordInHistory run_id current.duration sp.history })
    splits

/-- `Splits::is_final_split` (lines 245-249). -/
def isFinalSplit (splits : List Split) (t : InGameTime) : Bool :=
  match splits.getLast? with
  | some sp => sp.percent == t.percent
  | none => false

/-- `Splits::finalize_run_at` (lines 276-309). -/
def finalize_run_at (s : Splits) (run_id : Nat) (current : InGameTime)
    (now : Nat) : Splits :=
  let s1 : Splits :=
    { s with active_run := s.active_run.map (fun a => { a with end_time := some now }) }
  let is_pb : Bool :=
    durLt current.duration ((s1.personal_best.bind (fun pb => pb.final_time)).getD durationMAX)
  let s2 : Splits :=
    match s1.runs.find? (fun r => r.id == run_id) with
    | some r0 =>
        { s1 with
          runs := mapFirst (fun r => r.id == run_id)
            (fun r => { r with end_time := some now, final_time := some current.duration })
            s1.runs,
          personal_best :=
            if is_pb then
              some { r0 with end_time := some now, final_time := some current.duration }
            else s1.personal_best }
    | none => s1
  if is_pb then
    { s2 with
      splits := s2.splits.map (fun sp =>
        match sp.history.getLast? with
        | some e =>
            if e.run_id == run_id then { sp with time := some e.duration }
            else { sp with time := none }
        | none => { sp with time := none }) }
  else s2

/-- The tail of `update_with_igt` once a run id is attributed (lines 368-374):
record the split time, finalize if the final split was reached, and call
`save_to_file` (whose `Result` the source discards).  The boolean records that
the persistence write was attempted. -/
def updateAccepted (s : Splits) (run_id : Nat) (current : InGameTime)
    (now : Nat) : Splits × Bool :=
  let s1 := { s with splits := record_split_time s.splits run_id current }
  (if isFinalSplit s1.splits current then finalize_run_at s1 run_id current now else s1,
   true)

/-- `start_new_run_at` (lines 265-274) plus the `RunSummary` push of
`update_with_igt` (lines 355-365), followed by the accepted-sample tail. -/
def updateStartNew (s : Splits) (current : InGameTime) (now freshId : Nat) :
    Splits × Bool :=
  updateAccepted
    { s with
      active_run := some { id := freshId, start_time := now, end_time := none,
                           latest_split := current },
      runs := s.runs ++ [{ id := freshId, start_time := now, end_time := none,
                           final_time := none }] }
    freshId current now

/-- `Splits::update_with_igt` (lines 328-375).  `now` models `Utc::now()`,
`freshId` models the `Uuid::new_v4()` drawn if a new run is started.  The
returned boolean is `true` exactly when the source reaches its
`self.save_to_file()` call. -/
def update_with_igt (s : Splits) (current : InGameTime) (now freshId : Nat) :
    Splits × Bool :=
  if (s.splits.find? (fun sp => sp.percent == current.percent)).isNone then
    (s, false)
  else
    match s.active_run with
    | some a =>
        if current.percent < a.latest_split.percent then
          updateStartNew s current now freshId
        else if a.end_time.isSome then (s, false)
        else
          updateAccepted { s with active_run := some { a with latest_split := current } }
            a.id current now
    | none => updateStartNew s current now freshId

/-- Feeding a stream of samples to `update_with_igt`; each sample carries its
`now` timestamp and the fresh id that would be drawn.  The second component
counts how many of the samples reached the persistence write. -/
def updateMany (s : Splits) : List (InGameTime × Nat × Nat) → Splits × Nat
  | [] => (s, 0)
  | x :: rest =>
      let r1 := update_with_igt s x.1 x.2.1 x.2.2
      let r2 := updateMany r1.1 rest
      (r2.1, (if r1.2 then 1 else 0) + r2.2)

/-- `Splits::initialize_active_run` (lines 107-116).  The source calls
`Utc::now()` twice (`now1` for `start_time`, `now2` for `end_time`); note that
`end_time` is set from birth. -/
def initialize_active_run (s : Splits) (time : InGameTime)
    (now1 now2 freshId : Nat) : Splits :=
  if s.active_run.isNone then
    { s with active_run := some { id := freshId, start_time := now1,
                                  end_time := some now2, latest_split := time } }
  else s

/-- A sample is *accepted* when `update_with_igt` neither discards it for an
unknown percent nor ignores it because the active run is sealed — i.e. when
the source reaches the `save_to_file` call. -/
def acceptedB (s : Splits) (c : InGameTime) : Bool :=
  (s.splits.find? (fun sp => sp.percent == c.percent)).isSome &&
    (match s.active_run with
     | some a => decide (c.percent < a.latest_split.percent) || a.end_time.isNone
     | none => true)

/-- `update_with_igt` together with the outcome of the persistence write.
`saveOutcome` is the `Result` that `save_to_file` would return; the source
discards it (the bare statement `self.save_to_file();` on line 374, in a
function returning `()`), so the third component — the error surfaced to the
caller of `update_with_igt` — is `none` whatever the outcome is. -/
def update_with_igt_ext (s : Splits) (current : InGameTime) (now freshId : Nat)
    (saveOutcome : Except String Unit) : Splits × Bool × Option String :=
  let r := update_with_igt s current now freshId
  (r.1, r.2, none)

/-! ### Concrete aggregates used by counterexamples and witnesses -/

/-- The V1 file of the spec's migration example:
`{name:"Level 1", percent:10, duration:"0:10:00"}`. -/
def c1fileV1 : List SplitV1 :=
  [{ name := "Level 1", percent := 10, duration := some (durFromSecs 600) }]

/-- A fresh aggregate with a single (hence final) split at 100%. -/
def c2state : Splits :=
  { path := some "p", active_run := none, personal_best := none, runs := [],
    splits := [{ name := "Final", percent := 100, time := none, history := [] }] }

/-- The final-split sample with the largest representable duration. -/
def c2sample : InGameTime := { percent := 100, duration := durationMAX }

/-- An unfinished run summary used to exercise `finalize_run_at`. -/
def w2run : RunSummary := { id := 1, start_time := 0, end_time := none, final_time := none }

/-- Aggregate holding `w2run` and no personal best. -/
def w2state : Splits :=
  { path := some "p", active_run := none, personal_best := none, runs := [w2run],
    splits := [] }

/-- A finished personal-best run. -/
def c3run : RunSummary :=
  { id := 1, start_time := 0, end_time := some 9, final_time := some (durFromSecs 60) }

/-- Aggregate with a personal best and a stale split time, used to exercise
the validator. -/
def c3state : Splits :=
  { path := some "p", active_run := none, personal_best := some c3run, runs := [c3run],
    splits := [{ name := "a", percent := 10, time := some (durFromSecs 99),
                 history := [{ run_id := 1, duration := durFromSecs 30 }] }] }

/-- The split of `c3state` as the validator leaves it (final-split
reconciliation rewrites the duration to the run's final time, and the
personal-best pass copies it into `time`). -/
def c3split : Split :=
  { name := "a", percent := 10, time := some (durFromSecs 60),
    history := [{ run_id := 1, duration := durFromSecs 60 }] }

/-- The aggregate `validate` produces from `c3state`. -/
def c3out : Splits :=
  { path := some "p", active_run := none, personal_best := some c3run, runs := [c3run],
    splits := [c3split] }

/-- Aggregate with one split at 50%, used for the unknown-percent witness. -/
def c4wstate : Splits :=
  { path := some "p", active_run := none, personal_best := none, runs := [],
    splits := [{ name := "k", percent := 50, time := none, history := [] }] }

/-- Aggregate whose active run is already sealed (`end_time` set). -/
def c5wstate : Splits :=
  { path := some "p",
    active_run := some { id := 3, start_time := 0, end_time := some 8,
                         latest_split := { percent := 100, duration := durFromSecs 40 } },
    personal_best := none,
    runs := [{ id := 3, start_time := 0, end_time := some 8,
               final_time := some (durFromSecs 40) }],
    splits := [{ name := "f", percent := 100, time := none,
                 history := [{ run_id := 3, duration := durFromSecs 40 }] }] }

/-- Aggregate in the middle of a run at 40%, about to regress to 5%. -/
def c6wstate : Splits :=
  { path := some "p",
    active_run := some { id := 1, start_time := 0, end_time := none,
                         latest_split := { percent := 40, duration := durFromSecs 90 } },
    personal_best := none,
    runs := [{ id := 1, start_time := 0, end_time := none, final_time := none }],
    splits := [{ name := "Intro", percent := 5, time := none, history := [] },
               { name := "Mid", percent := 40, time := none,
                 history := [{ run_id := 1, duration := durFromSecs 90 }] }] }

/-- The regressing sample fed to `c6wstate`. -/
def c6wsample : InGameTime := { percent := 5, duration := durFromSecs 8 }

/-- Aggregate whose only split holds interleaved duplicate history entries for
a run id that does not occur in `runs`. -/
def c7state : Splits :=
  { path := some "p", active_run := none, personal_best := none, runs := [],
    splits := [{ name := "s", percent := 10, time := none,
                 history := [{ run_id := 1, duration := durFromSecs 10 },
                             { run_id := 2, duration := durFromSecs 9 },
                             { run_id := 1, duration := durFromSecs 8 }] }] }

/-- Aggregate whose only split holds duplicate history entries for run 1,
which does occur in `runs` (with no final time, so the final-split
reconciliation is inert). -/
def c8state : Splits :=
  { path := some "p", active_run := none, personal_best := none,
    runs := [{ id := 1, start_time := 0, end_time := none, final_time := none }],
    splits := [{ name := "s", percent := 10, time := none,
                 history := [{ run_id := 1, duration := durFromSecs 10 },
                             { run_id := 1, duration := durFromSecs 20 }] }] }

/-- What `validate` leaves of `c7state`: the interleaved duplicates survive
(the duration-descending tie-break sort leaves them non-adjacent, so the
consecutive dedup cannot collapse them). -/
def c7out : Splits :=
  { path := some "p", active_run := none, personal_best := none, runs := [],
    splits := [{ name := "s", percent := 10, time := none,
                 history := [{ run_id := 1, duration := durFromSecs 10 },
                             { run_id := 2, duration := durFromSecs 9 },
                             { run_id := 1, duration := durFromSecs 8 }] }] }

/-- A single known run, input to the C7 witness. -/
def c7wruns : List RunSummary := [{ id := 1, start_time := 0, end_time := none, final_time := none }]

/-- Duplicate history entries for the known run 1. -/
def c7whist : List HistoricalSplit :=
  [{ run_id := 1, duration := durFromSecs 10 }, { run_id := 1, duration := durFromSecs 20 }]

/-- What `validate` leaves of `c8state`: the smaller duplicate entry for run 1
has been discarded by the dedup step. -/
def c8out : Splits :=
  { path := some "p", active_run := none, personal_best := none,
    runs := [{ id := 1, start_time := 0, end_time := none, final_time := none }],
    splits := [{ name := "s", percent := 10, time := none,
                 history := [{ run_id := 1, duration := durFromSecs 20 }] }] }

/-- Fresh two-split aggregate used for the persistence-failure scenario. -/
def c9state : Splits :=
  { path := some "p", active_run := none, personal_best := none, runs := [],
    splits := [{ name := "a", percent := 10, time := none, history := [] },
               { name := "b", percent := 100, time := none, history := [] }] }

/-- The accepted sample fed to `c9state`. -/
def c9sample : InGameTime := { percent := 10, duration := durFromSecs 30 }

/-- Aggregate with no active run, used for `initialize_active_run`. -/
def c10wstate : Splits :=
  { path := some "p", active_run := none, personal_best := none, runs := [],
    splits := [{ name := "k", percent := 50, time := none, history := [] }] }

/-- Aggregate that already has an active run. -/
def c10wstate2 : Splits :=
  { path := some "p",
    active_run := some { id := 9, start_time := 1, end_time := none,
                         latest_split := { percent := 50, duration := durFromSecs 7 } },
    personal_best := none, runs := [], splits := [] }

/-! ### Comparator laws -/

theorem natCmp_lt_iff {a b : Nat} : natCmp a b = .lt ↔ a < b := by
  unfold natCmp; split_ifs with h1 h2 <;> simp_all

theorem natCmp_eq_iff {a b : Nat} : natCmp a b = .eq ↔ a = b := by
  unfold natCmp; split_ifs with h1 h2 <;> simp_all <;> omega

theorem natCmp_gt_iff {a b : Nat} : natCmp a b = .gt ↔ b < a := by
  unfold natCmp; split_ifs with h1 h2 <;> simp_all <;> omega

theorem natCmp_swap (a b : Nat) : natCmp a b = (natCmp b a).swap := by
  rcases Nat.lt_trichotomy a b with h | h | h
  · rw [natCmp_lt_iff.mpr h, natCmp_gt_iff.mpr h]; rfl
  · rw [natCmp_eq_iff.mpr h, natCmp_eq_iff.mpr h.symm]; rfl
  · rw [natCmp_gt_iff.mpr h, natCmp_lt_iff.mpr h]; rfl

theorem natCmp_le_trans {a b c : Nat} (h1 : natCmp a b ≠ .gt) (h2 : natCmp b c ≠ .gt) :
    natCmp a c ≠ .gt := by
  rw [Ne, natCmp_gt_iff] at h1 h2 ⊢; omega

theorem ordering_ne_gt_iff {o : Ordering} : o ≠ .gt ↔ o = .lt ∨ o = .eq := by
  cases o <;> simp

theorem optNatCmp_eq_iff {x y : Option Nat} : optNatCmp x y = .eq ↔ x = y := by
  cases x <;> cases y <;> simp [optNatCmp, natCmp_eq_iff]

theorem optNatCmp_swap (x y : Option Nat) : optNatCmp x y = (optNatCmp y x).swap := by
  cases x <;> cases y
  · rfl
  · rfl
  · rfl
  · exact natCmp_swap _ _

theorem optNatCmp_le_trans {x y z : Option Nat}
    (h1 : optNatCmp x y ≠ .gt) (h2 : optNatCmp y z ≠ .gt) : optNatCmp x z ≠ .gt := by
  cases x with
  | none => cases z <;> simp [optNatCmp]
  | some a =>
    cases y with
    | none => exact absurd rfl h1
    | some b =>
      cases z with
      | none => exact absurd rfl h2
      | some c => exact natCmp_le_trans h1 h2

theorem optNatCmp_antisymm {x y : Option Nat}
    (h1 : optNatCmp x y ≠ .gt) (h2 : optNatCmp y x ≠ .gt) : x = y := by
  rw [← optNatCmp_eq_iff (x := x) (y := y)]
  rw [optNatCmp_swap] at h2
  rcases ordering_ne_gt_iff.mp h1 with h | h
  · rw [h] at h2; simp [Ordering.swap] at h2
  · exact h

theorem durCmp_ne_gt_iff {a b : Duration} :
    durCmp a b ≠ .gt ↔ (a.secs < b.secs ∨ (a.secs = b.secs ∧ a.nanos ≤ b.nanos)) := by
  unfold durCmp
  rcases h : natCmp a.secs b.secs with _ | _ | _
  · rw [natCmp_lt_iff] at h; simp [h]
  · rw [natCmp_eq_iff] at h
    constructor
    · intro hng
      rw [Ne, natCmp_gt_iff] at hng
      right
      exact ⟨h, by omega⟩
    · rintro (hlt | ⟨-, hle⟩) <;> rw [Ne, natCmp_gt_iff] <;> omega
  · rw [natCmp_gt_iff] at h
    simp only [ne_eq, not_true_eq_false, false_iff]
    omega

theorem durCmp_le_trans {a b c : Duration}
    (h1 : durCmp a b ≠ .gt) (h2 : durCmp b c ≠ .gt) : durCmp a c ≠ .gt := by
  rw [durCmp_ne_gt_iff] at h1 h2 ⊢; omega

theorem durCmp_swap (a b : Duration) : durCmp a b = (durCmp b a).swap := by
  unfold durCmp
  rw [natCmp_swap a.secs b.secs, natCmp_swap a.nanos b.nanos]
  rcases natCmp b.secs a.secs with _ | _ | _ <;> rfl

theorem histCmp_swap (runs : List RunSummary) (a b : HistoricalSplit) :
    histCmp runs a b = (histCmp runs b a).swap := by
  unfold histCmp
  rw [optNatCmp_swap (runIdx runs a.run_id) (runIdx runs b.run_id),
    durCmp_swap b.duration a.duration]
  rcases optNatCmp (runIdx runs b.run_id) (runIdx runs a.run_id) with _ | _ | _ <;> rfl

theorem histCmp_ne_gt_iff {runs : List RunSummary} {a b : HistoricalSplit} :
    histCmp runs a b ≠ .gt ↔
      (optNatCmp (runIdx runs a.run_id) (runIdx runs b.run_id) = .lt ∨
        (runIdx runs a.run_id = runIdx runs b.run_id ∧ durCmp b.duration a.duration ≠ .gt)) := by
  unfold histCmp
  rcases h : optNatCmp (runIdx runs a.run_id) (runIdx runs b.run_id) with _ | _ | _
  · simp
  · rw [optNatCmp_eq_iff] at h
    simp [h]
  · constructor
    · intro hc; exact absurd rfl hc
    · rintro (hlt | ⟨heq, -⟩)
      · simp at hlt
      · rw [heq, optNatCmp_eq_iff.mpr rfl] at h
        simp at h

theorem histCmp_le_trans {runs : List RunSummary} {a b c : HistoricalSplit}
    (h1 : histCmp runs a b ≠ .gt) (h2 : histCmp runs b c ≠ .gt) :
    histCmp runs a c ≠ .gt := by
  rw [histCmp_ne_gt_iff] at h1 h2 ⊢
  rcases h1 with h1 | ⟨h1e, h1d⟩
  · rcases h2 with h2 | ⟨h2e, h2d⟩
    · left
      have t1 : optNatCmp (runIdx runs a.run_id) (runIdx runs b.run_id) ≠ .gt := by simp [h1]
      have t2 : optNatCmp (runIdx runs b.run_id) (runIdx runs c.run_id) ≠ .gt := by simp [h2]
      have t3 := optNatCmp_le_trans t1 t2
      rcases ordering_ne_gt_iff.mp t3 with h | h
      · exact h
      · exfalso
        rw [optNatCmp_eq_iff] at h
        rw [h, optNatCmp_swap, h2] at h1
        exact absurd h1 (by decide)
    · left; rw [← h2e]; exact h1
  · rcases h2 with h2 | ⟨h2e, h2d⟩
    · left; rw [h1e]; exact h2
    · right; exact ⟨h1e.trans h2e, durCmp_le_trans h2d h1d⟩

theorem idxCmp_swap (runs : List RunSummary) (a b : HistoricalSplit) :
    idxCmp runs a b = (idxCmp runs b a).swap := by
  unfold idxCmp; exact optNatCmp_swap _ _

theorem idxCmp_le_trans {runs : List RunSummary} {a b c : HistoricalSplit}
    (h1 : idxCmp runs a b ≠ .gt) (h2 : idxCmp runs b c ≠ .gt) :
    idxCmp runs a c ≠ .gt := by
  unfold idxCmp at h1 h2 ⊢; exact optNatCmp_le_trans h1 h2

/-! ### Sorting and dedup lemmas -/

theorem stableSortBy_perm (cmp : α → α → Ordering) (l : List α) :
    List.Perm (stableSortBy cmp l) l :=
  List.perm_insertionSort _ l

theorem stableSortBy_pairwise (cmp : α → α → Ordering)
    (hswap : ∀ a b, cmp a b = (cmp b a).swap)
    (htr : ∀ a b c, cmp a b ≠ .gt → cmp b c ≠ .gt → cmp a c ≠ .gt) (l : List α) :
    (stableSortBy cmp l).Pairwise (fun a b => cmp a b ≠ .gt) := by
  letI htot : IsTotal α (fun a b => cmp a b ≠ .gt) := by
    constructor
    intro a b
    by_cases h : cmp a b = .gt
    · right
      rw [hswap] at h
      intro hc
      rw [hc] at h
      exact absurd h (by decide)
    · left; exact h
  letI htrans : IsTrans α (fun a b => cmp a b ≠ .gt) := ⟨htr⟩
  exact List.sorted_insertionSort _ l

theorem dedupByKey_nil (key : α → Nat) : dedupByKey key ([] : List α) = [] := rfl

theorem dedupByKey_singleton (key : α → Nat) (x : α) : dedupByKey key [x] = [x] := rfl

theorem dedupByKey_cons_cons (key : α → Nat) (x y : α) (rest : List α) :
    dedupByKey key (x :: y :: rest) =
      if key x = key y then dedupByKey key (x :: rest)
      else x :: dedupByKey key (y :: rest) := rfl

theorem mem_of_mem_dedupByKey (key : α → Nat) :
    ∀ (l : List α) (a : α), a ∈ dedupByKey key l → a ∈ l
  | [], a, h => by simpa [dedupByKey_nil] using h
  | [x], a, h => by simpa [dedupByKey_singleton] using h
  | x :: y :: rest, a, h => by
      rw [dedupByKey_cons_cons] at h
      by_cases hk : key x = key y
      · rw [if_pos hk] at h
        have := mem_of_mem_dedupByKey key (x :: rest) a h
        rcases List.mem_cons.mp this with h' | h'
        · exact h' ▸ List.mem_cons_self _ _
        · exact List.mem_cons_of_mem _ (List.mem_cons_of_mem _ h')
      · rw [if_neg hk] at h
        rcases List.mem_cons.mp h with h' | h'
        · exact h' ▸ List.mem_cons_self _ _
        · exact List.mem_cons_of_mem _ (mem_of_mem_dedupByKey key (y :: rest) a h')
termination_by l => l.length

theorem dedupByKey_keeps_key (key : α → Nat) :
    ∀ (l : List α) (a : α), a ∈ l → ∃ b ∈ dedupByKey key l, key b = key a
  | [], a, h => absurd h (List.not_mem_nil a)
  | [x], a, h => by
      rcases List.mem_singleton.mp h with rfl
      exact ⟨a, by simp [dedupByKey_singleton]⟩
  | x :: y :: rest, a, h => by
      rw [dedupByKey_cons_cons]
      by_cases hk : key x = key y
      · rw [if_pos hk]
        rcases List.mem_cons.mp h with rfl | h'
        · exact dedupByKey_keeps_key key (a :: rest) a (List.mem_cons_self _ _)
        · rcases List.mem_cons.mp h' with rfl | h''
          · obtain ⟨b, hb, hkb⟩ :=
              dedupByKey_keeps_key key (x :: rest) x (List.mem_cons_self _ _)
            exact ⟨b, hb, by rw [hkb, hk]⟩
          · exact dedupByKey_keeps_key key (x :: rest) a (List.mem_cons_of_mem _ h'')
      · rw [if_neg hk]
        rcases List.mem_cons.mp h with rfl | h'
        · exact ⟨a, List.mem_cons_self _ _, rfl⟩
        · obtain ⟨b, hb, hkb⟩ := dedupByKey_keeps_key key (y :: rest) a h'
          exact ⟨b, List.mem_cons_of_mem _ hb, hkb⟩
termination_by l => l.length

/-! ### Lemmas about the small list helpers -/

theorem mapFirst_nil (p : α → Bool) (f : α → α) : mapFirst p f ([] : List α) = [] := rfl

theorem mapFirst_cons (p : α → Bool) (f : α → α) (x : α) (xs : List α) :
    mapFirst p f (x :: xs) = if p x then f x :: xs else x :: mapFirst p f xs := rfl

theorem mapFirst_eq_self (p : α → Bool) (f : α → α) :
    ∀ (l : List α), (∀ x ∈ l, p x = false) → mapFirst p f l = l
  | [], _ => rfl
  | x :: xs, h => by
      rw [mapFirst_cons, if_neg (by simp [h x (List.mem_cons_self _ _)]),
        mapFirst_eq_self p f xs (fun y hy => h y (List.mem_cons_of_mem _ hy))]

theorem mapFirst_append_singleton (p : α → Bool) (f : α → α) (l : List α) (x : α)
    (h : ∀ y ∈ l, p y = false) :
    mapFirst p f (l ++ [x]) = l ++ [if p x then f x else x] := by
  induction l with
  | nil =>
      rw [List.nil_append, List.nil_append, mapFirst_cons]
      by_cases hp : p x
      · rw [if_pos hp, if_pos hp]
      · rw [if_neg (by simp [hp]), if_neg hp, mapFirst_nil]
  | cons y ys ih =>
      rw [List.cons_append, mapFirst_cons, if_neg (by simp [h y (List.mem_cons_self _ _)]),
        ih (fun z hz => h z (List.mem_cons_of_mem _ hz)), List.cons_append]

theorem find?_append_singleton (p : α → Bool) (l : List α) (x : α)
    (h : ∀ y ∈ l, p y = false) :
    (l ++ [x]).find? p = if p x then some x else none := by
  induction l with
  | nil => cases hp : p x <;> simp [List.find?, hp]
  | cons y ys ih =>
      rw [List.cons_append,
        List.find?_cons_of_neg _ (by simp [h y (List.mem_cons_self _ _)])]
      exact ih (fun z hz => h z (List.mem_cons_of_mem _ hz))

theorem mapLast_mem (f : α → α) :
    ∀ (l : List α) (x : α), x ∈ l → x ∈ mapLast f l ∨ f x ∈ mapLast f l
  | [], x, h => absurd h (List.not_mem_nil x)
  | [y], x, h => by
      rcases List.mem_singleton.mp h with rfl
      right; simp [mapLast]
  | y :: z :: rest, x, h => by
      rw [mapLast]
      rcases List.mem_cons.mp h with rfl | h'
      · left; exact List.mem_cons_self _ _
      · rcases mapLast_mem f (z :: rest) x h' with h'' | h''
        · left; exact List.mem_cons_of_mem _ h''
        · right; exact List.mem_cons_of_mem _ h''

theorem setFirstDuration_cons (id : Nat) (d : Duration) (e : HistoricalSplit)
    (rest : List HistoricalSplit) :
    setFirstDuration id d (e :: rest) =
      if e.run_id == id then { e with duration := d } :: rest
      else e :: setFirstDuration id d rest := rfl

theorem setFirstDuration_map_run_id (id : Nat) (d : Duration) :
    ∀ (h : List HistoricalSplit),
      (setFirstDuration id d h).map (fun e => e.run_id) = h.map (fun e => e.run_id)
  | [] => rfl
  | e :: rest => by
      rw [setFirstDuration_cons]
      by_cases he : e.run_id == id
      · rw [if_pos he]; rfl
      · rw [if_neg he, List.map_cons, List.map_cons,
          setFirstDuration_map_run_id id d rest]

/-! ### Lemmas about the run lifecycle engine -/

theorem sealed_update_noop (s : Splits) (a : ActiveRun) (c : InGameTime)
    (now freshId : Nat) (ha : s.active_run = some a) (he : a.end_time.isSome = true)
    (hge : a.latest_split.percent ≤ c.percent) :
    update_with_igt s c now freshId = (s, false) := by
  unfold update_with_igt
  by_cases hf : (s.splits.find? (fun sp => sp.percent == c.percent)).isNone
  · rw [if_pos hf]
  · rw [if_neg hf]
    simp only [ha]
    rw [if_neg (by omega), if_pos he]

theorem updateMany_noop (s : Splits) (L : List (InGameTime × Nat × Nat))
    (h : ∀ x ∈ L, update_with_igt s x.1 x.2.1 x.2.2 = (s, false)) :
    updateMany s L = (s, 0) := by
  induction L with
  | nil => rfl
  | cons x rest ih =>
      have hx := h x (List.mem_cons_self _ _)
      simp only [updateMany, hx]
      rw [ih (fun y hy => h y (List.mem_cons_of_mem _ hy))]
      rfl

theorem updateAccepted_snd (s : Splits) (run_id : Nat) (c : InGameTime) (now : Nat) :
    (updateAccepted s run_id c now).2 = true := rfl

theorem accepted_reaches_save (s : Splits) (c : InGameTime) (now freshId : Nat)
    (h : acceptedB s c = true) : (update_with_igt s c now freshId).2 = true := by
  unfold acceptedB at h
  rw [Bool.and_eq_true] at h
  obtain ⟨hfind, hrest⟩ := h
  unfold update_with_igt
  rw [if_neg (by simp only [Option.isNone_iff_eq_none]; intro hc; rw [hc] at hfind; simp at hfind)]
  cases hact : s.active_run with
  | none => exact updateAccepted_snd _ _ _ _
  | some a =>
      rw [hact] at hrest
      dsimp only at hrest ⊢
      by_cases hlt : c.percent < a.latest_split.percent
      · rw [if_pos hlt]; exact updateAccepted_snd _ _ _ _
      · rw [if_neg hlt]
        rw [Bool.or_eq_true] at hrest
        rcases hrest with h' | h'
        · exact absurd (of_decide_eq_true h') hlt
        · rw [Option.isNone_iff_eq_none] at h'
          rw [if_neg (by rw [h']; simp)]
          exact updateAccepted_snd _ _ _ _

theorem recordInHistory_fresh (run_id : Nat) (d : Duration)
    (h : List HistoricalSplit) (hf : ∀ e ∈ h, e.run_id ≠ run_id) :
    recordInHistory run_id d h = h ++ [{ run_id := run_id, duration := d }] := by
  unfold recordInHistory
  cases hl : h.getLast? with
  | none => rfl
  | some e =>
      have he : e ∈ h := List.mem_of_mem_getLast? hl
      dsimp only
      rw [if_neg (by simp [hf e he])]

/-! ### Structural lemmas about `finalize_run_at` and `validate` -/

theorem finalize_run_at_active (x : Splits) (rid : Nat) (c : InGameTime) (now : Nat) :
    (finalize_run_at x rid c now).active_run =
      x.active_run.map (fun a => { a with end_time := some now }) := by
  unfold finalize_run_at
  dsimp only
  split <;> split <;> rfl

theorem finalize_run_at_runs (x : Splits) (rid : Nat) (c : InGameTime) (now : Nat) :
    (finalize_run_at x rid c now).runs =
      mapFirst (fun r => r.id == rid)
        (fun r => { r with end_time := some now, final_time := some c.duration }) x.runs := by
  unfold finalize_run_at
  dsimp only
  cases hf : (x.runs.find? (fun r => r.id == rid)) with
  | none =>
      rw [mapFirst_eq_self _ _ _ (fun y hy => by
        have := List.find?_eq_none.mp hf y hy
        simpa using this)]
      split <;> rfl
  | some r0 => split <;> rfl

theorem pb_times_map_history {β : Type} (g : List HistoricalSplit → β) (rid : Nat)
    (l : List Split) :
    (l.map (fun sp =>
        match sp.history.getLast? with
        | some e =>
            if e.run_id == rid then { sp with time := some e.duration }
            else { sp with time := none }
        | none => { sp with time := none })).map (fun sp => g sp.history) =
      l.map (fun sp => g sp.history) := by
  rw [List.map_map]
  congr 1
  funext sp
  dsimp only [Function.comp]
  cases sp.history.getLast? with
  | none => rfl
  | some e =>
      dsimp only
      split <;> rfl

theorem finalize_run_at_histories {β : Type} (g : List HistoricalSplit → β)
    (x : Splits) (rid : Nat) (c : InGameTime) (now : Nat) :
    (finalize_run_at x rid c now).splits.map (fun sp => g sp.history) =
      x.splits.map (fun sp => g sp.history) := by
  unfold finalize_run_at
  dsimp only
  split
  · split
    · exact pb_times_map_history g rid x.splits
    · exact pb_times_map_history g rid x.splits
  · split <;> rfl

theorem validate_ok_elim (s r : Splits) (h : validate s = .ok r) :
    r = { s with
      runs := backfillPB s.personal_best (sortRuns s.runs),
      splits :=
        (mapLast (reconcileFinal (sortRuns s.runs) (backfillPB s.personal_best (sortRuns s.runs)))
          ((sortSplits s.splits).map (fun sp =>
            { sp with history := processHistory (sortRuns s.runs) sp.history }))).map
          (setTimeFromPB s.personal_best) } := by
  unfold validate at h
  dsimp only at h
  split at h
  · exact Except.noConfusion h
  · split at h
    · injection h with h'
      exact h'.symm
    · exact Except.noConfusion h

/-! ### The claims -/

/-- C1: the claim says loading a well-formed V1 file yields splits whose
`time` equals the V1 `duration` (600 s for the example file) even though the
migrated structure passes through the Validator.  The code disagrees: the
Validator's last step recomputes every `Split.time` from `personal_best`,
which is `None` after a V1 migration, so every `time` is wiped to `None`.
This theorem evaluates the embedded load pipeline on the spec's example file
(the repository's own test `load_from_file_with_valid_v1_file_migrates_to_v2`
asserts `time == Some(600)` for this input and therefore contradicts the
code, while its test `validate_sets_split_time_to_none_if_no_personal_best`
asserts the wiping behaviour). -/
theorem c1_v1_load_wipes_time :
    loadFromFileV1 "splits.json" c1fileV1 =
      .ok { path := some "splits.json", active_run := none, personal_best := none,
            runs := [],
            splits := [{ name := "Level 1", percent := 10, time := none, history := [] }] } := by
  rfl

/-- C2 counterexample: an update sample that reaches the final split and
finalizes a run (its `RunSummary` gets `end_time`/`final_time`) while no
personal best exists, yet `personal_best` is NOT set — refuting
"unconditionally true if no personal best exists yet".  The code compares
against the `Duration::MAX` sentinel, so a run finishing at exactly
`Duration::MAX` never counts as an improvement. -/
theorem c2_counterexample :
    (update_with_igt c2state c2sample 5 7).1.runs =
        [{ id := 7, start_time := 5, end_time := some 5,
           final_time := some durationMAX }] ∧
      (update_with_igt c2state c2sample 5 7).1.personal_best = none := by
  exact ⟨rfl, rfl⟩

/-- How `finalize_run_at` updates `personal_best` when the finalized run is
present in `runs`. -/
theorem finalize_run_at_pb (x : Splits) (rid : Nat) (c : InGameTime) (now : Nat)
    (r0 : RunSummary) (hfind : x.runs.find? (fun r => r.id == rid) = some r0) :
    (finalize_run_at x rid c now).personal_best =
      (if durLt c.duration ((x.personal_best.bind (fun pb => pb.final_time)).getD durationMAX)
       then some { r0 with end_time := some now, final_time := some c.duration }
       else x.personal_best) := by
  unfold finalize_run_at
  dsimp only
  rw [hfind]
  cases hpb : durLt c.duration ((x.personal_best.bind (fun pb => pb.final_time)).getD durationMAX) with
  | true => simp
  | false => simp

/-- C2 (amended): when `finalize_run_at` seals a run whose summary is present
in `runs`, the run becomes the new personal best iff its final time is
strictly below the current personal best's final time, and — when no personal
best exists — unconditionally *provided the final time is strictly below the
`Duration::MAX` sentinel the code compares against*; ties never replace the
personal best. -/
theorem c2_pb_update_rule (s : Splits) (run_id : Nat) (current : InGameTime)
    (now : Nat) (r0 : RunSummary)
    (hfind : s.runs.find? (fun r => r.id == run_id) = some r0) :
    (s.personal_best = none → durLt current.duration durationMAX = true →
        (finalize_run_at s run_id current now).personal_best =
          some { r0 with end_time := some now, final_time := some current.duration }) ∧
      (∀ pb t, s.personal_best = some pb → pb.final_time = some t →
        (finalize_run_at s run_id current now).personal_best =
          (if durLt current.duration t
           then some { r0 with end_time := some now, final_time := some current.duration }
           else some pb)) := by
  constructor
  · intro hpb hlt
    rw [finalize_run_at_pb s run_id current now r0 hfind, hpb]
    simp only [Option.none_bind, Option.getD_none, hlt, if_true]
  · intro pb t hpb ht
    rw [finalize_run_at_pb s run_id current now r0 hfind, hpb]
    simp only [Option.some_bind, ht, Option.getD_some]

/-- C2 witness: a 50-second run finalized with no pre-existing personal best
becomes the personal best. -/
theorem c2_witness :
    (finalize_run_at w2state 1 { percent := 100, duration := durFromSecs 50 } 7).personal_best =
      some { id := 1, start_time := 0, end_time := some 7,
             final_time := some (durFromSecs 50) } :=
  (c2_pb_update_rule w2state 1 { percent := 100, duration := durFromSecs 50 } 7 w2run
    (by rfl)).1 (by rfl) (by decide)

/-- C3: after a successful `validate`, every split's `time` is exactly the
duration of its history entry for the personal best's id (via the same
`find?` the code uses), and `none` when there is no personal best or no such
entry. -/
theorem c3_validator_recomputes_times (s r : Splits) (h : validate s = .ok r) :
    ∀ sp ∈ r.splits,
      sp.time = r.personal_best.bind (fun pb =>
        (sp.history.find? (fun e => e.run_id == pb.id)).map (fun e => e.duration)) := by
  have hr := validate_ok_elim s r h
  subst hr
  intro sp hsp
  dsimp only at hsp ⊢
  rw [List.mem_map] at hsp
  obtain ⟨y, hy, rfl⟩ := hsp
  rfl

/-- C3 witness: on `c3state` the validator returns `c3out`, whose only
split's time is the personal-best history duration. -/
theorem c3_witness :
    c3split.time = c3out.personal_best.bind (fun pb =>
      (c3split.history.find? (fun e => e.run_id == pb.id)).map (fun e => e.duration)) :=
  c3_validator_recomputes_times c3state c3out (by rfl) c3split (by simp [c3out, c3split])

/-- C4: an update sample whose percent matches no configured split is a
complete no-op: the aggregate is returned unchanged and the persistence
write is not reached. -/
theorem c4_unknown_percent_noop (s : Splits) (c : InGameTime) (now freshId : Nat)
    (h : s.splits.find? (fun sp => sp.percent == c.percent) = none) :
    update_with_igt s c now freshId = (s, false) := by
  unfold update_with_igt
  rw [h]
  rfl

/-- C4 witness: a sample at 30% against a single split at 50%. -/
theorem c4_witness :
    update_with_igt c4wstate { percent := 30, duration := durFromSecs 9 } 0 1 =
      (c4wstate, false) :=
  c4_unknown_percent_noop c4wstate { percent := 30, duration := durFromSecs 9 } 0 1 (by rfl)

/-- C5: once the active run is sealed (`end_time` set), any number of
subsequent samples whose percent is not lower than the active run's latest
percent leaves the aggregate — run summaries, split histories, everything —
exactly unchanged and performs no persistence write. -/
theorem c5_sealed_run_ignored (s : Splits) (a : ActiveRun)
    (samples : List (InGameTime × Nat × Nat))
    (ha : s.active_run = some a) (he : a.end_time.isSome = true)
    (hge : ∀ x ∈ samples, a.latest_split.percent ≤ x.1.percent) :
    updateMany s samples = (s, 0) :=
  updateMany_noop s samples (fun x hx =>
    sealed_update_noop s a x.1 x.2.1 x.2.2 ha he (hge x hx))

/-- C5 witness: two further samples at the final percent (one with a
different duration) leave the sealed aggregate untouched. -/
theorem c5_witness :
    updateMany c5wstate
      [({ percent := 100, duration := durFromSecs 41 }, 9, 4),
       ({ percent := 100, duration := durFromSecs 999 }, 10, 5)] = (c5wstate, 0) :=
  c5_sealed_run_ignored c5wstate
    { id := 3, start_time := 0, end_time := some 8,
      latest_split := { percent := 100, duration := durFromSecs 40 } }
    [({ percent := 100, duration := durFromSecs 41 }, 9, 4),
     ({ percent := 100, duration := durFromSecs 999 }, 10, 5)]
    (by rfl) (by rfl) (by decide)

/-- C9 counterexample: for a concrete accepted sample the persistence write is
attempted and fails, yet no error reaches the caller of `update_with_igt`
(the source discards the `Result` of `save_to_file` on line 374), refuting
"propagated to the caller as a recoverable error". -/
theorem c9_counterexample :
    (update_with_igt_ext c9state c9sample 0 1 (.error "disk full")).2.1 = true ∧
      (update_with_igt_ext c9state c9sample 0 1 (.error "disk full")).2.2 = none := by
  exact ⟨rfl, rfl⟩

/-- C9 (amended): for every accepted update sample a persistence write is
attempted, but its outcome is discarded: no error is surfaced to the caller
and the resulting in-memory aggregate does not depend on the write outcome. -/
theorem c9_write_attempted_error_swallowed (s : Splits) (c : InGameTime)
    (now freshId : Nat) (saveOutcome : Except String Unit)
    (h : acceptedB s c = true) :
    update_with_igt_ext s c now freshId saveOutcome =
      ((update_with_igt s c now freshId).1, true, none) := by
  unfold update_with_igt_ext
  dsimp only
  rw [accepted_reaches_save s c now freshId h]

/-- C9 witness: the amended rule applied to `c9state` with a failing write. -/
theorem c9_witness :
    update_with_igt_ext c9state c9sample 0 1 (.error "boom") =
      ((update_with_igt c9state c9sample 0 1).1, true, none) :=
  c9_write_attempted_error_swallowed c9state c9sample 0 1 (.error "boom") (by rfl)

/-- C10: `initialize_active_run` on an aggregate without an active run
creates one whose `end_time` is already set (born sealed) — so every
subsequent sample with percent not lower than the initializing sample's is
ignored entirely, with no persistence write — and it changes nothing when an
active run already exists. -/
theorem c10_initialize_born_sealed (s : Splits) (t : InGameTime)
    (now1 now2 freshId : Nat) (samples : List (InGameTime × Nat × Nat)) :
    (s.active_run = none →
        initialize_active_run s t now1 now2 freshId =
          { s with active_run := some { id := freshId, start_time := now1,
                                        end_time := some now2, latest_split := t } } ∧
        ((∀ x ∈ samples, t.percent ≤ x.1.percent) →
          updateMany (initialize_active_run s t now1 now2 freshId) samples =
            (initialize_active_run s t now1 now2 freshId, 0))) ∧
      (∀ a, s.active_run = some a →
        initialize_active_run s t now1 now2 freshId = s) := by
  constructor
  · intro hnone
    have hini : initialize_active_run s t now1 now2 freshId =
        { s with active_run := some { id := freshId, start_time := now1,
                                      end_time := some now2, latest_split := t } } := by
      unfold initialize_active_run
      rw [if_pos (by rw [hnone]; rfl)]
    refine ⟨hini, fun hge => ?_⟩
    rw [hini]
    exact updateMany_noop _ samples (fun x hx =>
      sealed_update_noop _
        { id := freshId, start_time := now1, end_time := some now2, latest_split := t }
        x.1 x.2.1 x.2.2 rfl rfl (hge x hx))
  · intro a ha
    unfold initialize_active_run
    rw [if_neg (by rw [ha]; simp)]

/-- C10 witness: the born-sealed behaviour on `c10wstate` (two subsequent
samples ignored) and the no-op behaviour on `c10wstate2`. -/
theorem c10_witness :
    updateMany (initialize_active_run c10wstate { percent := 50, duration := durFromSecs 3 } 0 0 2)
        [({ percent := 50, duration := durFromSecs 5 }, 1, 6),
         ({ percent := 70, duration := durFromSecs 9 }, 2, 7)] =
      (initialize_active_run c10wstate { percent := 50, duration := durFromSecs 3 } 0 0 2, 0) ∧
      initialize_active_run c10wstate2 { percent := 50, duration := durFromSecs 3 } 0 0 2 =
        c10wstate2 :=
  ⟨((c10_initialize_born_sealed c10wstate { percent := 50, duration := durFromSecs 3 } 0 0 2
      [({ percent := 50, duration := durFromSecs 5 }, 1, 6),
       ({ percent := 70, duration := durFromSecs 9 }, 2, 7)]).1 (by rfl)).2 (by decide),
   (c10_initialize_born_sealed c10wstate2 { percent := 50, duration := durFromSecs 3 } 0 0 2
      []).2 _ (by rfl)⟩

/-! ### C6: percent regression starts a fresh run, preserving everything -/

theorem mapFirst_congr (p : α → Bool) (f g : α → α) :
    ∀ (l : List α), (∀ x ∈ l, p x = true → f x = g x) →
      mapFirst p f l = mapFirst p g l
  | [], _ => rfl
  | x :: xs, h => by
      rw [mapFirst_cons, mapFirst_cons]
      by_cases hp : p x = true
      · rw [if_pos hp, if_pos hp, h x (List.mem_cons_self _ _) hp]
      · rw [if_neg hp, if_neg hp,
          mapFirst_congr p f g xs (fun y hy => h y (List.mem_cons_of_mem _ hy))]

theorem filter_fresh (rid : Nat) (h : List HistoricalSplit)
    (hf : ∀ e ∈ h, e.run_id ≠ rid) :
    h.filter (fun e => !(e.run_id == rid)) = h :=
  List.filter_eq_self.mpr (fun e he => by simp [hf e he])

theorem filter_fresh_map (rid : Nat) :
    ∀ (l : List Split), (∀ sp ∈ l, ∀ e ∈ sp.history, e.run_id ≠ rid) →
      l.map (fun sp => sp.history.filter (fun e => !(e.run_id == rid))) =
        l.map (fun sp => sp.history)
  | [], _ => rfl
  | x :: xs, h => by
      rw [List.map_cons, List.map_cons,
        filter_fresh rid x.history (h x (List.mem_cons_self _ _)),
        filter_fresh_map rid xs (fun y hy => h y (List.mem_cons_of_mem _ hy))]

theorem mapFirst_push_filter (rid : Nat) (d : Duration) (cp : Nat) :
    ∀ (l : List Split), (∀ sp ∈ l, ∀ e ∈ sp.history, e.run_id ≠ rid) →
      (mapFirst (fun sp => sp.percent == cp)
        (fun sp => { sp with history := sp.history ++ [{ run_id := rid, duration := d }] })
        l).map (fun sp => sp.history.filter (fun e => !(e.run_id == rid))) =
      l.map (fun sp => sp.history)
  | [], _ => rfl
  | x :: xs, h => by
      rw [mapFirst_cons]
      by_cases hp : (x.percent == cp) = true
      · rw [if_pos hp, List.map_cons, List.map_cons]
        congr 1
        · dsimp only
          rw [List.filter_append,
            filter_fresh rid x.history (h x (List.mem_cons_self _ _))]
          simp
        · exact filter_fresh_map rid xs (fun y hy => h y (List.mem_cons_of_mem _ hy))
      · rw [if_neg hp, List.map_cons, List.map_cons,
          filter_fresh rid x.history (h x (List.mem_cons_self _ _)),
          mapFirst_push_filter rid d cp xs (fun y hy => h y (List.mem_cons_of_mem _ hy))]

/-- C6: an update sample with a matching percent strictly below the active
run's latest percent starts a brand-new run under the fresh id: a new
`RunSummary` is appended (so the abandoned run's summary is still present,
exactly as it stood) and every history entry recorded under any old run id is
untouched — stripping the fresh id's entries from the resulting histories
gives back the old histories verbatim. -/
theorem c6_reset_starts_new_run (s : Splits) (a : ActiveRun) (c : InGameTime)
    (now freshId : Nat)
    (ha : s.active_run = some a)
    (hmatch : (s.splits.find? (fun sp => sp.percent == c.percent)).isSome = true)
    (hlt : c.percent < a.latest_split.percent)
    (hfr : ∀ r ∈ s.runs, r.id ≠ freshId)
    (hfh : ∀ sp ∈ s.splits, ∀ e ∈ sp.history, e.run_id ≠ freshId) :
    (∃ nr : RunSummary, nr.id = freshId ∧
        (update_with_igt s c now freshId).1.runs = s.runs ++ [nr]) ∧
      (∀ r ∈ s.runs, r ∈ (update_with_igt s c now freshId).1.runs) ∧
      (∃ a' : ActiveRun, a'.id = freshId ∧
          (update_with_igt s c now freshId).1.active_run = some a') ∧
      (update_with_igt s c now freshId).1.splits.map
          (fun sp => sp.history.filter (fun e => !(e.run_id == freshId))) =
        s.splits.map (fun sp => sp.history) := by
  obtain ⟨v, hv⟩ := Option.isSome_iff_exists.mp hmatch
  have hredex : update_with_igt s c now freshId = updateStartNew s c now freshId := by
    unfold update_with_igt
    rw [if_neg (by rw [hv]; simp)]
    simp only [ha]
    rw [if_pos hlt]
  rw [hredex]
  unfold updateStartNew updateAccepted
  dsimp only
  have hrec : record_split_time s.splits freshId c =
      mapFirst (fun sp => sp.percent == c.percent)
        (fun sp => { sp with history := sp.history ++ [{ run_id := freshId, duration := c.duration }] })
        s.splits := by
    unfold record_split_time
    exact mapFirst_congr _ _ _ s.splits (fun sp hsp _ => by
      rw [recordInHistory_fresh freshId c.duration sp.history (hfh sp hsp)])
  rw [hrec]
  by_cases hfin :
      isFinalSplit
        (mapFirst (fun sp => sp.percent == c.percent)
          (fun sp => { sp with history := sp.history ++ [{ run_id := freshId, duration := c.duration }] })
          s.splits) c = true
  · rw [if_pos hfin]
    have hruns :
        (finalize_run_at
          { s with
            active_run := some { id := freshId, start_time := now, end_time := none,
                                 latest_split := c },
            runs := s.runs ++ [{ id := freshId, start_time := now, end_time := none,
                                 final_time := none }],
            splits := mapFirst (fun sp => sp.percent == c.percent)
              (fun sp => { sp with history := sp.history ++ [{ run_id := freshId, duration := c.duration }] })
              s.splits }
          freshId c now).runs =
        s.runs ++ [{ id := freshId, start_time := now, end_time := some now,
                     final_time := some c.duration }] := by
      rw [finalize_run_at_runs]
      dsimp only
      rw [mapFirst_append_singleton _ _ _ _ (fun r hr => by simp [hfr r hr])]
      rw [if_pos (by simp)]
    refine ⟨⟨_, rfl, hruns⟩, ?_, ?_, ?_⟩
    · intro r hr
      rw [hruns]
      exact List.mem_append_left _ hr
    · refine ⟨{ id := freshId, start_time := now, end_time := some now, latest_split := c },
        rfl, ?_⟩
      rw [finalize_run_at_active]
      rfl
    · rw [finalize_run_at_histories (fun h => h.filter (fun e => !(e.run_id == freshId)))]
      dsimp only
      exact mapFirst_push_filter freshId c.duration c.percent s.splits hfh
  · rw [if_neg hfin]
    refine ⟨⟨_, rfl, rfl⟩, ?_, ?_, ?_⟩
    · intro r hr
      exact List.mem_append_left _ hr
    · exact ⟨{ id := freshId, start_time := now, end_time := none, latest_split := c }, rfl, rfl⟩
    · exact mapFirst_push_filter freshId c.duration c.percent s.splits hfh

/-- C6 witness: regressing from 40% to 5% on `c6wstate` with fresh id 2. -/
theorem c6_witness :
    (∃ nr : RunSummary, nr.id = 2 ∧
        (update_with_igt c6wstate c6wsample 3 2).1.runs = c6wstate.runs ++ [nr]) ∧
      (∀ r ∈ c6wstate.runs, r ∈ (update_with_igt c6wstate c6wsample 3 2).1.runs) ∧
      (∃ a' : ActiveRun, a'.id = 2 ∧
          (update_with_igt c6wstate c6wsample 3 2).1.active_run = some a') ∧
      (update_with_igt c6wstate c6wsample 3 2).1.splits.map
          (fun sp => sp.history.filter (fun e => !(e.run_id == 2))) =
        c6wstate.splits.map (fun sp => sp.history) :=
  c6_reset_starts_new_run c6wstate
    { id := 1, start_time := 0, end_time := none,
      latest_split := { percent := 40, duration := durFromSecs 90 } }
    c6wsample 3 2 (by rfl) (by rfl) (by decide) (by decide) (by decide)

/-! ### C8: what the validator preserves -/

/-- C8 counterexample: the entry `(run 1, 10 s)` is present in `c8state`
before validation but in no split's history afterwards — the dedup step
discards it — refuting "every split history entry present before validation
is still present afterwards". -/
theorem c8_counterexample :
    validate c8state = .ok c8out ∧
      (∃ sp ∈ c8state.splits,
        ({ run_id := 1, duration := durFromSecs 10 } : HistoricalSplit) ∈ sp.history) ∧
      (∀ sp ∈ c8out.splits,
        ({ run_id := 1, duration := durFromSecs 10 } : HistoricalSplit) ∉ sp.history) := by
  refine ⟨by rfl, by decide, by decide⟩

theorem processHistory_keeps_run_id (runs : List RunSummary)
    (hist : List HistoricalSplit) (e : HistoricalSplit) (he : e ∈ hist) :
    ∃ e' ∈ processHistory runs hist, e'.run_id = e.run_id := by
  have h1 : e ∈ stableSortBy (histCmp runs) hist :=
    (stableSortBy_perm (histCmp runs) hist).mem_iff.mpr he
  obtain ⟨b, hb, hkb⟩ :=
    dedupByKey_keeps_key (fun e => e.run_id) (stableSortBy (histCmp runs) hist) e h1
  exact ⟨b, hb, hkb⟩

theorem reconcileOne_keeps_run_id (h : List HistoricalSplit) (run : RunSummary)
    (ρ : Nat) (hm : ∃ e ∈ h, e.run_id = ρ) :
    ∃ e' ∈ reconcileOne h run, e'.run_id = ρ := by
  unfold reconcileOne
  cases run.final_time with
  | none => exact hm
  | some ft =>
      dsimp only
      by_cases ha : h.any (fun e => e.run_id == run.id)
      · rw [if_pos ha]
        obtain ⟨e, he, heρ⟩ := hm
        have : ρ ∈ (setFirstDuration run.id ft h).map (fun e => e.run_id) := by
          rw [setFirstDuration_map_run_id]
          exact heρ ▸ List.mem_map_of_mem (fun e => e.run_id) he
        obtain ⟨e', he', he'ρ⟩ := List.mem_map.mp this
        exact ⟨e', he', he'ρ⟩
      · rw [if_neg ha]
        obtain ⟨e, he, heρ⟩ := hm
        exact ⟨e, List.mem_append_left _ he, heρ⟩

theorem foldl_reconcile_keeps_run_id (ρ : Nat) :
    ∀ (L : List RunSummary) (h : List HistoricalSplit),
      (∃ e ∈ h, e.run_id = ρ) → ∃ e' ∈ L.foldl reconcileOne h, e'.run_id = ρ
  | [], h, hm => hm
  | r :: L, h, hm =>
      foldl_reconcile_keeps_run_id ρ L (reconcileOne h r) (reconcileOne_keeps_run_id h r ρ hm)

/-- C8 (amended): given the two fatal checks pass, the validator preserves
every `RunSummary` exactly, and it never loses a run id from a split's
history: for every split and every input history entry, an entry with the
same `run_id` is still in that split's history afterwards (duplicate entries
for one run id are collapsed to a single one, however, and the final split's
durations are rewritten to match run final times — which is what the
counterexample exhibits). -/
theorem c8_validator_preserves (s r : Splits) (h : validate s = .ok r) :
    (∀ run ∈ s.runs, run ∈ r.runs) ∧
      (∀ sp ∈ s.splits, ∃ sp' ∈ r.splits,
        sp'.name = sp.name ∧ sp'.percent = sp.percent ∧
        ∀ e ∈ sp.history, ∃ e' ∈ sp'.history, e'.run_id = e.run_id) := by
  have hr := validate_ok_elim s r h
  subst hr
  constructor
  · intro run hrun
    dsimp only
    have h1 : run ∈ sortRuns s.runs :=
      (stableSortBy_perm _ s.runs).mem_iff.mpr hrun
    unfold backfillPB
    cases s.personal_best with
    | none => exact h1
    | some p =>
        dsimp only
        by_cases hany : (sortRuns s.runs).any (fun r => r.id == p.id)
        · rw [if_pos hany]; exact h1
        · rw [if_neg hany]; exact List.mem_append_left _ h1
  · intro sp hsp
    dsimp only
    have h1 : sp ∈ sortSplits s.splits :=
      (stableSortBy_perm _ s.splits).mem_iff.mpr hsp
    have h2 : ({ sp with history := processHistory (sortRuns s.runs) sp.history }) ∈
        (sortSplits s.splits).map (fun sp =>
          { sp with history := processHistory (sortRuns s.runs) sp.history }) :=
      List.mem_map_of_mem _ h1
    rcases mapLast_mem (reconcileFinal (sortRuns s.runs)
        (backfillPB s.personal_best (sortRuns s.runs))) _ _ h2 with h3 | h3
    · refine ⟨setTimeFromPB s.personal_best
        { sp with history := processHistory (sortRuns s.runs) sp.history },
        List.mem_map_of_mem _ h3, rfl, rfl, ?_⟩
      intro e he
      exact processHistory_keeps_run_id (sortRuns s.runs) sp.history e he
    · refine ⟨setTimeFromPB s.personal_best
        (reconcileFinal (sortRuns s.runs) (backfillPB s.personal_best (sortRuns s.runs))
          { sp with history := processHistory (sortRuns s.runs) sp.history }),
        List.mem_map_of_mem _ h3, rfl, rfl, ?_⟩
      intro e he
      obtain ⟨e', he', hk⟩ :=
        processHistory_keeps_run_id (sortRuns s.runs) sp.history e he
      obtain ⟨e'', he'', hk2⟩ :=
        foldl_reconcile_keeps_run_id e.run_id
          (backfillPB s.personal_best (sortRuns s.runs))
          (processHistory (sortRuns s.runs) sp.history) ⟨e', he', hk⟩
      exact ⟨e'', (stableSortBy_perm _ _).mem_iff.mpr he'', hk2⟩

/-- C8 witness: the preservation statement applied to `c8state`. -/
theorem c8_witness :
    (∀ run ∈ c8state.runs, run ∈ c8out.runs) ∧
      (∀ sp ∈ c8state.splits, ∃ sp' ∈ c8out.splits,
        sp'.name = sp.name ∧ sp'.percent = sp.percent ∧
        ∀ e ∈ sp.history, ∃ e' ∈ sp'.history, e'.run_id = e.run_id) :=
  c8_validator_preserves c8state c8out (by rfl)

/-! ### C7: what the dedup step actually guarantees -/

/-- C7 counterexample: `c7state`'s split holds two history entries for run 1
(which does not occur in `runs`) interleaved with an entry for run 2; after
`validate` BOTH entries for run 1 are still there — the duration-descending
tie-break sort leaves the duplicates non-adjacent, so the consecutive dedup
cannot collapse them — refuting "exactly one entry per run_id remains". -/
theorem c7_counterexample :
    validate c7state = .ok c7out ∧
      (∀ sp ∈ c7state.splits, (sp.history.filter (fun e => e.run_id == 1)).length = 2) ∧
      (∀ sp ∈ c7out.splits, (sp.history.filter (fun e => e.run_id == 1)).length = 2) :=
  ⟨by rfl, by decide, by decide⟩

theorem runIdx_inj :
    ∀ (runs : List RunSummary) {p q i : Nat},
      runIdx runs p = some i → runIdx runs q = some i → p = q
  | [], p, q, i, h1, _ => by simp [runIdx] at h1
  | r :: rest, p, q, i, h1, h2 => by
      simp only [runIdx] at h1 h2
      by_cases hp : (r.id == p) = true
      · rw [if_pos hp] at h1
        by_cases hq : (r.id == q) = true
        · exact (beq_iff_eq.mp hp).symm.trans (beq_iff_eq.mp hq)
        · exfalso
          rw [if_neg hq] at h2
          injection h1 with h1'
          cases hmq : runIdx rest q with
          | none => rw [hmq] at h2; simp at h2
          | some j =>
              rw [hmq] at h2
              simp only [Option.map_some', Option.some.injEq] at h2
              omega
      · rw [if_neg hp] at h1
        by_cases hq : (r.id == q) = true
        · exfalso
          rw [if_pos hq] at h2
          injection h2 with h2'
          cases hmp : runIdx rest p with
          | none => rw [hmp] at h1; simp at h1
          | some j =>
              rw [hmp] at h1
              simp only [Option.map_some', Option.some.injEq] at h1
              omega
        · rw [if_neg hq] at h2
          cases hmp : runIdx rest p with
          | none => rw [hmp] at h1; simp at h1
          | some j1 =>
              cases hmq : runIdx rest q with
              | none => rw [hmq] at h2; simp at h2
              | some j2 =>
                  rw [hmp] at h1
                  rw [hmq] at h2
                  simp only [Option.map_some', Option.some.injEq] at h1 h2
                  have hj : j1 = j2 := by omega
                  exact runIdx_inj rest hmp (hj ▸ hmq)

theorem histCmp_fst_le {runs : List RunSummary} {a b : HistoricalSplit}
    (h : histCmp runs a b ≠ .gt) :
    optNatCmp (runIdx runs a.run_id) (runIdx runs b.run_id) ≠ .gt := by
  rcases histCmp_ne_gt_iff.mp h with h' | ⟨h', -⟩
  · rw [h']; simp
  · rw [h', optNatCmp_eq_iff.mpr rfl]; simp

theorem dedup_filter_of_sorted (runs : List RunSummary) (u i : Nat)
    (hknown : runIdx runs u = some i) :
    ∀ (l : List HistoricalSplit),
      l.Pairwise (fun a b => histCmp runs a b ≠ .gt) →
      (dedupByKey (fun e => e.run_id) l).filter (fun e => e.run_id == u) =
        (l.filter (fun e => e.run_id == u)).take 1
  | [], _ => rfl
  | [x], _ => by
      rw [dedupByKey_singleton]
      cases hp : (x.run_id == u) <;> simp [List.filter_cons, hp]
  | x :: y :: rest, hpw => by
      rw [dedupByKey_cons_cons]
      by_cases hk : x.run_id = y.run_id
      · rw [if_pos hk]
        have hpw' : (x :: rest).Pairwise (fun a b => histCmp runs a b ≠ .gt) := by
          rcases List.pairwise_cons.mp hpw with ⟨hx, hyr⟩
          exact List.pairwise_cons.mpr
            ⟨fun z hz => hx z (List.mem_cons_of_mem _ hz), (List.pairwise_cons.mp hyr).2⟩
        rw [dedup_filter_of_sorted runs u i hknown (x :: rest) hpw']
        cases hp : (x.run_id == u) with
        | true =>
            have hpy : (y.run_id == u) = true := by
              rw [beq_iff_eq] at hp ⊢; rw [← hk]; exact hp
            simp [List.filter_cons, hp, hpy]
        | false =>
            have hpy : (y.run_id == u) = false := by
              rw [beq_eq_false_iff_ne] at hp ⊢; rw [← hk]; exact hp
            simp [List.filter_cons, hp, hpy]
      · rw [if_neg hk]
        cases hp : (x.run_id == u) with
        | true =>
            have hxru : x.run_id = u := beq_iff_eq.mp hp
            have hκx : runIdx runs x.run_id = some i := by rw [hxru]; exact hknown
            have hxall : ∀ z ∈ y :: rest, histCmp runs x z ≠ .gt :=
              (List.pairwise_cons.mp hpw).1
            have hyall : ∀ z ∈ rest, histCmp runs y z ≠ .gt :=
              (List.pairwise_cons.mp (List.pairwise_cons.mp hpw).2).1
            have hnone : ∀ z ∈ y :: rest, (z.run_id == u) = false := by
              intro z hz
              rw [beq_eq_false_iff_ne]
              intro hzu
              have hκz : runIdx runs z.run_id = some i := by rw [hzu]; exact hknown
              rcases List.mem_cons.mp hz with rfl | hzr
              · exact hk (by rw [hxru, hzu])
              · have h1 := histCmp_fst_le (hxall y (List.mem_cons_self _ _))
                have h2 := histCmp_fst_le (hyall z hzr)
                rw [hκx] at h1
                rw [hκz] at h2
                have hκy : runIdx runs y.run_id = some i := optNatCmp_antisymm h2 h1
                have hyu : y.run_id = u := runIdx_inj runs hκy hknown
                exact hk (by rw [hxru, hyu])
            have hfd : ∀ z ∈ dedupByKey (fun e => e.run_id) (y :: rest),
                (z.run_id == u) = false :=
              fun z hz => hnone z (mem_of_mem_dedupByKey _ _ _ hz)
            have hLHS : (x :: dedupByKey (fun e => e.run_id) (y :: rest)).filter
                (fun e => e.run_id == u) = [x] := by
              rw [List.filter_cons, if_pos hp,
                List.filter_eq_nil_iff.mpr (fun a ha => by simp [hfd a ha])]
            have hRHS : (((x :: y :: rest).filter (fun e => e.run_id == u)).take 1) = [x] := by
              rw [List.filter_cons, if_pos hp]
              rfl
            rw [hLHS, hRHS]
        | false =>
            have hpw' := (List.pairwise_cons.mp hpw).2
            have hLHS : (x :: dedupByKey (fun e => e.run_id) (y :: rest)).filter
                (fun e => e.run_id == u) =
                (dedupByKey (fun e => e.run_id) (y :: rest)).filter (fun e => e.run_id == u) := by
              rw [List.filter_cons, if_neg (by simp [hp])]
            have hRHS : (x :: y :: rest).filter (fun e => e.run_id == u) =
                (y :: rest).filter (fun e => e.run_id == u) := by
              rw [List.filter_cons, if_neg (by simp [hp])]
            rw [hLHS, dedup_filter_of_sorted runs u i hknown (y :: rest) hpw', hRHS]

/-- C7 (amended): the sort/dedup step of the validator collapses duplicate
history entries to a single one — keeping the largest duration — only for
run ids that occur in the (sorted) `runs` list: for such an id, exactly one
entry survives `processHistory` and its duration is maximal among the input's
entries for that id.  (For ids absent from `runs`, duplicates can survive, as
the counterexample shows.) -/
theorem c7_known_id_dedup (runs : List RunSummary) (hist : List HistoricalSplit)
    (u i : Nat) (hknown : runIdx runs u = some i)
    (hmem : ∃ e ∈ hist, e.run_id = u) :
    ∃ d : Duration,
      (processHistory runs hist).filter (fun e => e.run_id == u) =
          [{ run_id := u, duration := d }] ∧
        (∃ e ∈ hist, e.run_id = u ∧ e.duration = d) ∧
        (∀ e ∈ hist, e.run_id = u → durCmp e.duration d ≠ .gt) := by
  have hpw : (stableSortBy (histCmp runs) hist).Pairwise
      (fun a b => histCmp runs a b ≠ .gt) :=
    stableSortBy_pairwise (histCmp runs) (histCmp_swap runs)
      (fun a b c h1 h2 => histCmp_le_trans h1 h2) hist
  have hfil := dedup_filter_of_sorted runs u i hknown (stableSortBy (histCmp runs) hist) hpw
  have hpf := (stableSortBy_perm (histCmp runs) hist).filter (fun e => e.run_id == u)
  obtain ⟨e0, he0, he0u⟩ := hmem
  have hne : (stableSortBy (histCmp runs) hist).filter (fun e => e.run_id == u) ≠ [] := by
    intro hnil
    have h1 : e0 ∈ hist.filter (fun e => e.run_id == u) :=
      List.mem_filter.mpr ⟨he0, by simp [he0u]⟩
    have h2 := hpf.mem_iff.mpr h1
    rw [hnil] at h2
    exact absurd h2 (List.not_mem_nil _)
  obtain ⟨hd, tl, hcons⟩ := List.exists_cons_of_ne_nil hne
  have hhd_mem : hd ∈ (stableSortBy (histCmp runs) hist).filter (fun e => e.run_id == u) := by
    rw [hcons]; exact List.mem_cons_self _ _
  have hhd_p : (hd.run_id == u) = true := (List.mem_filter.mp hhd_mem).2
  have hhdu : hd.run_id = u := beq_iff_eq.mp hhd_p
  have hhd_hist : hd ∈ hist := (List.mem_filter.mp (hpf.mem_iff.mp hhd_mem)).1
  refine ⟨hd.duration, ?_, ⟨hd, hhd_hist, hhdu, rfl⟩, ?_⟩
  · unfold processHistory
    rw [hfil, hcons]
    rw [show (hd :: tl).take 1 = [hd] from rfl]
    exact congrArg (fun z => [z]) (by cases hd with | mk a b => simp_all)
  · intro e he heu
    have hef : e ∈ (stableSortBy (histCmp runs) hist).filter (fun e => e.run_id == u) :=
      hpf.mem_iff.mpr (List.mem_filter.mpr ⟨he, by simp [heu]⟩)
    rw [hcons] at hef
    rcases List.mem_cons.mp hef with rfl | hetl
    · rw [durCmp_ne_gt_iff]; omega
    · have hpwf : ((stableSortBy (histCmp runs) hist).filter
          (fun e => e.run_id == u)).Pairwise (fun a b => histCmp runs a b ≠ .gt) :=
        hpw.sublist (List.filter_sublist _)
      rw [hcons] at hpwf
      have hle := (List.pairwise_cons.mp hpwf).1 e hetl
      rcases histCmp_ne_gt_iff.mp hle with hlt | ⟨-, hdur⟩
      · exfalso
        have h1 : runIdx runs hd.run_id = some i := by rw [hhdu]; exact hknown
        have h2 : runIdx runs e.run_id = some i := by rw [heu]; exact hknown
        rw [h1, h2, optNatCmp_eq_iff.mpr rfl] at hlt
        exact absurd hlt (by decide)
      · exact hdur

/-- C7 witness: the amended rule applied to two duplicate entries for the
known run 1 — the entry with the larger duration (20 s) is the one kept. -/
theorem c7_witness :
    ∃ d : Duration,
      (processHistory c7wruns c7whist).filter (fun e => e.run_id == 1) =
          [{ run_id := 1, duration := d }] ∧
        (∃ e ∈ c7whist, e.run_id = 1 ∧ e.duration = d) ∧
        (∀ e ∈ c7whist, e.run_id = 1 → durCmp e.duration d ≠ .gt) :=
  c7_known_id_dedup c7wruns c7whist 1 0 (by rfl) (by decide)
